import Mathlib

/-!
Verification development for the Ghidra Processor Module Generator (GPMG)
command-line driver (`src/main.cpp`) and its instruction-combining engine.

The driver is embedded as a pure function over the parsed command-line
arguments and an abstract external world (the outcomes of the collaborator
routines `initRegisters`, `parseInstructions`, `createProcessorModule`,
which live outside the driver file).  The combining engine
(`combineInstructions` and the data model it operates on) is modelled from
the design specification, since its implementation is external to the
driver source.
-/

namespace GPMG

/-! ### Command-line configuration (main.cpp lines 39-51)

Each valued option is `none` when not supplied on the command line;
`boost::program_options` default values are applied by `applyDefaults`.
Options declared with `bool_switch` are `false` unless the flag is present,
which we model by a plain `Bool` that is `false` when the flag is absent. -/

structure CmdArgs where
  inputFile : Option String
  processorName : Option String
  processorFamily : Option String
  endian : Option String
  alignment : Option Nat
  bitness : Option Nat
  omitOpcodes : Bool
  omitExampleInstructions : Bool
  printRegistersOnly : Bool
  skipInstructionCombining : Bool
  help : Bool
deriving DecidableEq

/-- The configuration fields of `PARSED_DATA` that are filled in by command
line parsing (main.cpp lines 40-48). -/
structure PARSED_DATA where
  inputFilename : String
  processorName : String
  processorFamily : String
  endian : String
  alignment : Nat
  bitness : Nat
  omitOpcodes : Bool
  omitExampleInstructions : Bool
deriving DecidableEq

/-- Resolution of option defaults, as declared via `default_value` in
main.cpp lines 40-48: `"MyProc"`, `"MyProcFamily"`, `"big"`, `1`, `32`;
the `bool_switch` flags default to `false`. -/
def applyDefaults (a : CmdArgs) : PARSED_DATA :=
  { inputFilename := a.inputFile.getD ""
    processorName := a.processorName.getD "MyProc"
    processorFamily := a.processorFamily.getD "MyProcFamily"
    endian := a.endian.getD "big"
    alignment := a.alignment.getD 1
    bitness := a.bitness.getD 32
    omitOpcodes := a.omitOpcodes
    omitExampleInstructions := a.omitExampleInstructions }

/-- The observable stages of a run of `main`, in the order the driver
invokes them (main.cpp lines 85-149).  `cleanupStage` is the `CLEANUP`
label's `clearParserData` call (line 149). -/
inductive Stage where
  | initRegistersStage
  | parseStage
  | printRegsStage
  | combineDuplicatesStage
  | combineImmediatesStage
  | combineRegistersStage
  | attachStage
  | tokenStage
  | outputStage
  | cleanupStage
deriving DecidableEq

/-- Modelled from the spec: the outcomes of the external collaborators that
`main` calls but whose bodies are outside the driver source.
`initRegistersOk`/`parseInstructionsOk` report success of `initRegisters` /
`parseInstructions`; per the spec's command-surface contract ("-1 on …
register-catalog initialization failure, or ingestion/parse failure") a
failing collaborator returns -1, which `main` passes through.
`cmdParseThrows` models `boost::program_options` raising while parsing
`argv` (caught at main.cpp line 74); `noArgv` models `argc == 1`;
`createModuleOk` is the success of the external serializer
`createProcessorModule` (its result is not inspected by the driver). -/
structure ExtWorld where
  cmdParseThrows : Bool
  noArgv : Bool
  initRegistersOk : Bool
  parseInstructionsOk : Bool
  createModuleOk : Bool
deriving DecidableEq

/-- Embedding of `main` (main.cpp lines 17-151).  Returns the process exit
code together with the trace of stages executed.  The branch structure
follows the source line by line: the `catch` of a command-line parsing
error (line 74-78), the help / `argc == 1` check (line 56), the required
input file check (line 62), the endianness check (line 68), then
`initRegisters` (line 85), `parseInstructions` (line 97), the
`printRegistersOnly` early exit (line 106), the three `combineInstructions`
calls guarded by `skipInstructionCombining` (line 119), and the
unconditional `computeAttachVariables`, `computeTokenInstructions`,
`createProcessorModule` calls followed by the `CLEANUP` label. -/
def main (a : CmdArgs) (w : ExtWorld) : Int × List Stage :=
  if w.cmdParseThrows then (-1, [])
  else if a.help = true ∨ w.noArgv = true then (0, [])
  else if a.inputFile = none then (-1, [])
  else if (applyDefaults a).endian ≠ "big" ∧ (applyDefaults a).endian ≠ "little" then (-1, [])
  else if w.initRegistersOk = false then (-1, [Stage.initRegistersStage, Stage.cleanupStage])
  else if w.parseInstructionsOk = false then
    (-1, [Stage.initRegistersStage, Stage.parseStage, Stage.cleanupStage])
  else if a.printRegistersOnly = true then
    (0, [Stage.initRegistersStage, Stage.parseStage, Stage.printRegsStage, Stage.cleanupStage])
  else if a.skipInstructionCombining = true then
    (0, [Stage.initRegistersStage, Stage.parseStage,
         Stage.attachStage, Stage.tokenStage, Stage.outputStage, Stage.cleanupStage])
  else
    (0, [Stage.initRegistersStage, Stage.parseStage,
         Stage.combineDuplicatesStage, Stage.combineImmediatesStage,
         Stage.combineRegistersStage,
         Stage.attachStage, Stage.tokenStage, Stage.outputStage, Stage.cleanupStage])

/-- A command line carrying no options at all. -/
def emptyArgs : CmdArgs :=
  { inputFile := none
    processorName := none
    processorFamily := none
    endian := none
    alignment := none
    bitness := none
    omitOpcodes := false
    omitExampleInstructions := false
    printRegistersOnly := false
    skipInstructionCombining := false
    help := false }

/-- A well-formed invocation with an input file and all collaborators
succeeding. -/
def okArgs : CmdArgs :=
  { emptyArgs with inputFile := some "in.txt" }

def okWorld : ExtWorld :=
  { cmdParseThrows := false
    noArgv := false
    initRegistersOk := true
    parseInstructionsOk := true
    createModuleOk := true }

/-! ### Data model of the combining engine

Modelled from the spec (sections 3 and 4): the engine called through
`combineInstructions` lives outside the driver source, so its data model
and the three combine passes are taken from the specification's
descriptions. -/

/-- Modelled from the spec: one bit symbol of a BitPattern — "each either
a literal 0/1 or a reference to a field-id" (spec section 3). -/
inductive PatBit where
  | lit (b : Bool)
  | fieldRef (idx : Nat)
deriving DecidableEq

def PatBit.isLit : PatBit → Bool
  | .lit _ => true
  | .fieldRef _ => false

def PatBit.litValue : PatBit → Bool
  | .lit b => b
  | .fieldRef _ => false

/-- Modelled from the spec: an OperandField is Fixed, an ImmediateField
with a bit range and signedness, or a RegisterField with a bit range and
its attach group (spec section 3). -/
inductive OperandField where
  | fixed
  | immediateField (lo hi : Nat) (signed : Bool)
  | registerField (lo hi : Nat) (attach : List (Nat × String))
deriving DecidableEq

/-- The bit positions covered by an operand field's bit range. -/
def OperandField.cover : OperandField → Nat → Prop
  | .fixed, _ => False
  | .immediateField lo hi _, j => lo ≤ j ∧ j ≤ hi
  | .registerField lo hi _, j => lo ≤ j ∧ j ≤ hi

/-- Modelled from the spec: an InstructionEntry carries mnemonic, operand
syntax tokens, BitPattern, source ordinal, and the operand fields produced
by merging (spec section 3). -/
structure InstructionEntry where
  mnemonic : String
  tokens : List String
  pattern : List PatBit
  fields : List OperandField
  ordinal : Nat
deriving DecidableEq

/-- Modelled from the spec: a catalog register has a name and bit width
(spec section 3, Register). -/
structure Register where
  name : String
  bitWidth : Nat
deriving DecidableEq

/-- Modelled from the spec: the RegisterCatalog is the set of known
register symbols. -/
abbrev RegisterCatalog := List Register

/-- Big-endian value of a bit string (most significant bit first). -/
def bitsToNat : List Bool → Nat
  | [] => 0
  | b :: bs => (if b then 2 ^ bs.length else 0) + bitsToNat bs

/-- The `w`-bit big-endian bit string of `v % 2 ^ w`. -/
def natToBits : Nat → Nat → List Bool
  | 0, _ => []
  | w + 1, v => decide (v / 2 ^ w % 2 = 1) :: natToBits w v

/-- The pattern bits of `p` on positions `[lo, lo+w)`, read as literals. -/
def litSlice (p : List PatBit) (lo w : Nat) : List Bool :=
  ((p.drop lo).take w).map PatBit.litValue

/-- The value encoded by the literal bits of `p` on `[lo, lo+w)`. -/
def sliceVal (p : List PatBit) (lo w : Nat) : Nat :=
  bitsToNat (litSlice p lo w)

/-- Substituting value `v` for a `w`-bit field occupying positions
`[lo, lo+w)` of `p`: those positions become the literal bits of `v`,
all others are unchanged. -/
def writeSlice (p : List PatBit) (lo w v : Nat) : List PatBit :=
  (List.range p.length).map fun j =>
    if lo ≤ j ∧ j < lo + w then PatBit.lit ((natToBits w v).getD (j - lo) false)
    else p.getD j (PatBit.lit false)

/-- Replacing positions `[lo, lo+w)` of `p` by references to field `idx`
(the merged entry's generalized range). -/
def refSlice (p : List PatBit) (lo w idx : Nat) : List PatBit :=
  (List.range p.length).map fun j =>
    if lo ≤ j ∧ j < lo + w then PatBit.fieldRef idx
    else p.getD j (PatBit.lit false)

/-- Substituting one value for one operand field of a pattern. -/
def applyField (p : List PatBit) : OperandField → Nat → List PatBit
  | .fixed, _ => p
  | .immediateField lo hi _, v => writeSlice p lo (hi + 1 - lo) v
  | .registerField lo hi _, v => writeSlice p lo (hi + 1 - lo) v

/-- Substituting a value for each operand field of a pattern. -/
def applyFields (p : List PatBit) (z : List (OperandField × Nat)) : List PatBit :=
  z.foldl (fun acc fv => applyField acc fv.1 fv.2) p

/-- Modelled from the spec: the legal domain of an operand field's values —
an immediate field's legal domain is governed by its width
(spec section 4.2), a register field's by its attach group. -/
def legalValue : OperandField → Nat → Prop
  | .fixed, _ => True
  | .immediateField lo hi _, v => v < 2 ^ (hi + 1 - lo)
  | .registerField _ _ attach, v => ∃ s, (v, s) ∈ attach

/-- `e` reproduces the concrete bit string `p`: substituting some legal
value for each of `e`'s operand fields yields exactly `p` (spec:
coverage/round-trip property). -/
def reproducesPat (e : InstructionEntry) (p : List Bool) : Prop :=
  ∃ vs : List Nat, vs.length = e.fields.length ∧
    (∀ fv ∈ e.fields.zip vs, legalValue fv.1 fv.2) ∧
    applyFields e.pattern (e.fields.zip vs) = p.map PatBit.lit

/-- The concrete bit string of a raw (all-literal) entry's pattern. -/
def rawBits (e : InstructionEntry) : List Bool :=
  e.pattern.map PatBit.litValue

/-- Modelled from the spec: "Raw entries have no OperandFields beyond
Fixed" and their BitPattern is fully literal (spec section 3). -/
def isRawEntry (e : InstructionEntry) : Prop :=
  e.fields = [] ∧ e.pattern.all PatBit.isLit = true

instance (e : InstructionEntry) : Decidable (isRawEntry e) := by
  unfold isRawEntry; infer_instance

/-- Every operand field of `e` lives only on field-reference positions of
its pattern: no field covers a literal bit. -/
def litFree (e : InstructionEntry) : Prop :=
  ∀ j b, e.pattern[j]? = some (PatBit.lit b) → ∀ f ∈ e.fields, ¬ f.cover j

/-! ### Pass 1: DuplicateCombiner -/

/-- The duplicate-combining key: (mnemonic, BitPattern, operand syntax
tokens) (spec section 4.1). -/
def dupKey (e : InstructionEntry) : String × List PatBit × List String :=
  (e.mnemonic, e.pattern, e.tokens)

/-- Keep the first entry of each duplicate-key class, in input order. -/
def dedupBy : List (String × List PatBit × List String) →
    List InstructionEntry → List InstructionEntry
  | _, [] => []
  | seen, e :: rest =>
    if dupKey e ∈ seen then dedupBy seen rest
    else e :: dedupBy (dupKey e :: seen) rest

/-- Modelled from the spec (section 4.1, external to the driver source):
one entry per distinct (mnemonic, BitPattern, operandSyntaxTokens) key,
each class represented by its first entry in input order — the lowest
sourceOrdinal for ordinal-sorted input.  Entries sharing a BitPattern but
differing in mnemonic have distinct keys and are both retained. -/
def duplicateCombiner (l : List InstructionEntry) : List InstructionEntry :=
  dedupBy [] l

/-! ### Passes 2 and 3: ImmediateCombiner and RegisterCombiner -/

/-- The grouping key of the immediate/register passes: mnemonic, operand
token count, already-derived operand fields, and total encoding width
(spec sections 4.2/4.3 and the design note on grouping by a derived key). -/
def groupKey (e : InstructionEntry) : String × Nat × List OperandField × Nat :=
  (e.mnemonic, e.tokens.length, e.fields, e.pattern.length)

/-- The order-preserving partition of `l` into grouping-key classes. -/
def groupsOf (l : List InstructionEntry) : List (List InstructionEntry) :=
  ((l.map groupKey).dedup).map fun k => l.filter fun e => decide (groupKey e = k)

/-- The bit positions at which some member of `g` differs from `h`. -/
def diffPositions (h : InstructionEntry) (g : List InstructionEntry) : List Nat :=
  (List.range h.pattern.length).filter fun j =>
    g.any fun m =>
      decide (m.pattern.getD j (PatBit.lit false) ≠ h.pattern.getD j (PatBit.lit false))

/-- The low end of the candidate varying range of a group. -/
def groupLo (h : InstructionEntry) (g : List InstructionEntry) : Nat :=
  (diffPositions h g).headD 0

/-- The width of the candidate varying range of a group. -/
def groupW (h : InstructionEntry) (g : List InstructionEntry) : Nat :=
  (diffPositions h g).getLastD 0 + 1 - groupLo h g

/-- All members of a candidate group agree with the head on mnemonic,
operand arity, derived fields, and encoding width. -/
def sameShape (h : InstructionEntry) (g : List InstructionEntry) : Prop :=
  ∀ m ∈ g, m.mnemonic = h.mnemonic ∧ m.tokens.length = h.tokens.length ∧
    m.fields = h.fields ∧ m.pattern.length = h.pattern.length

instance (h : InstructionEntry) (g : List InstructionEntry) :
    Decidable (sameShape h g) := by
  unfold sameShape; infer_instance

/-- Every member's bits on the candidate range are literal. -/
def litRange (g : List InstructionEntry) (lo w : Nat) : Prop :=
  ∀ j ∈ List.range' lo w, ∀ m ∈ g,
    (m.pattern.getD j (PatBit.lit false)).isLit = true

instance (g : List InstructionEntry) (lo w : Nat) : Decidable (litRange g lo w) := by
  unfold litRange; infer_instance

/-- Modelled from the spec (section 4.2): a group merges only if (a) the
differing positions form one contiguous range, (b) every member is
identical outside that range (all disagreements with the head lie inside
it by construction of `diffPositions`), and (c) distinct members map to
distinct values on that range; additionally the members share mnemonic,
operand arity, derived fields, and width, and the range is fully literal
so that each member has a well-defined value on it. -/
def MergeableCore (h : InstructionEntry) (g : List InstructionEntry) : Prop :=
  sameShape h g ∧ diffPositions h g ≠ [] ∧
  diffPositions h g = List.range' (groupLo h g) (groupW h g) ∧
  litRange g (groupLo h g) (groupW h g) ∧
  (g.map fun m => sliceVal m.pattern (groupLo h g) (groupW h g)).Nodup

instance (h : InstructionEntry) (g : List InstructionEntry) :
    Decidable (MergeableCore h g) := by
  unfold MergeableCore; infer_instance

/-- The register symbol a member resolves to: the first of its operand
tokens that names a catalog register (spec section 4.3: the symbol must
textually match the operand token). -/
def resolveRegToken (cat : RegisterCatalog) (m : InstructionEntry) : Option String :=
  m.tokens.find? fun t => cat.any fun r => r.name == t

/-- Modelled from the spec (section 4.3): a register merge additionally
requires every member's candidate value to resolve to a known register
symbol, distinct across members. -/
def MergeableReg (cat : RegisterCatalog) (h : InstructionEntry)
    (g : List InstructionEntry) : Prop :=
  MergeableCore h g ∧ (∀ m ∈ g, (resolveRegToken cat m).isSome = true) ∧
  (g.map fun m => (resolveRegToken cat m).getD "").Nodup

instance (cat : RegisterCatalog) (h : InstructionEntry) (g : List InstructionEntry) :
    Decidable (MergeableReg cat h g) := by
  unfold MergeableReg; infer_instance

/-- The attach group of a register merge: the (encoding value, register
name) pairs of the group, in encoding-value order (spec section 4.3). -/
def attachList (cat : RegisterCatalog) (g : List InstructionEntry)
    (lo w : Nat) : List (Nat × String) :=
  (g.map fun m => (sliceVal m.pattern lo w, (resolveRegToken cat m).getD "")).mergeSort
    fun a b => decide (a.1 ≤ b.1)

/-- The combined entry produced by merging group `g` with head `h` into a
fresh operand field `F`: the head's pattern with the varying range
replaced by references to the new field, appended to the head's fields. -/
def mergeWith (h : InstructionEntry) (g : List InstructionEntry)
    (F : OperandField) : InstructionEntry :=
  { mnemonic := h.mnemonic
    tokens := h.tokens
    pattern := refSlice h.pattern (groupLo h g) (groupW h g) h.fields.length
    fields := h.fields ++ [F]
    ordinal := h.ordinal }

/-- The combined entry of an immediate merge: the varying range becomes a
fresh ImmediateField (spec section 4.2, unsigned by default). -/
def mergeImm (h : InstructionEntry) (g : List InstructionEntry) : InstructionEntry :=
  mergeWith h g
    (OperandField.immediateField (groupLo h g) (groupLo h g + groupW h g - 1) false)

/-- The combined entry of a register merge: the varying range becomes a
fresh RegisterField bound to the group's attach list (spec section 4.3). -/
def mergeReg (cat : RegisterCatalog) (h : InstructionEntry)
    (g : List InstructionEntry) : InstructionEntry :=
  mergeWith h g
    (OperandField.registerField (groupLo h g) (groupLo h g + groupW h g - 1)
      (attachList cat g (groupLo h g) (groupW h g)))

/-- One grouping-key class of the immediate pass: merged into a single
combined entry when mergeable, otherwise retained unchanged. -/
def combineGroupImm (g : List InstructionEntry) : List InstructionEntry :=
  match g with
  | [] => []
  | h :: t =>
    if t ≠ [] ∧ MergeableCore h (h :: t) then [mergeImm h (h :: t)] else h :: t

/-- One grouping-key class of the register pass. -/
def combineGroupReg (cat : RegisterCatalog) (g : List InstructionEntry) :
    List InstructionEntry :=
  match g with
  | [] => []
  | h :: t =>
    if t ≠ [] ∧ MergeableReg cat h (h :: t) then [mergeReg cat h (h :: t)] else h :: t

/-- Modelled from the spec (section 4.2): the immediate-combining pass. -/
def immediateCombiner (l : List InstructionEntry) : List InstructionEntry :=
  (groupsOf l).flatMap combineGroupImm

/-- Modelled from the spec (section 4.3): the register-combining pass. -/
def registerCombiner (cat : RegisterCatalog) (l : List InstructionEntry) :
    List InstructionEntry :=
  (groupsOf l).flatMap (combineGroupReg cat)

/-- The combine-mode selector of the driver's three calls
(main.cpp lines 122, 125, 128). -/
inductive CombineMode where
  | duplicates
  | immediates
  | registers

/-- Modelled from the spec: the three-mode combine routine the driver
invokes as `combineInstructions(parsedData, COMBINE_*)`; its body is
external to the driver source. -/
def combineInstructions (cat : RegisterCatalog) (mode : CombineMode)
    (l : List InstructionEntry) : List InstructionEntry :=
  match mode with
  | .duplicates => duplicateCombiner l
  | .immediates => immediateCombiner l
  | .registers => registerCombiner cat l

/-- The instruction list after the driver's three combine calls, in their
fixed order (main.cpp lines 119-129). -/
def finalCombined (cat : RegisterCatalog) (l : List InstructionEntry) :
    List InstructionEntry :=
  combineInstructions cat .registers
    (combineInstructions cat .immediates (combineInstructions cat .duplicates l))

/-- Two raw entries sharing one BitPattern under different mnemonics: the
spec's ambiguous-encoding example, which every pass retains unmerged. -/
def entryA : InstructionEntry :=
  { mnemonic := "a", tokens := [], pattern := [PatBit.lit false], fields := [], ordinal := 0 }

def entryB : InstructionEntry :=
  { mnemonic := "b", tokens := [], pattern := [PatBit.lit false], fields := [], ordinal := 1 }

/-- An invocation of `--help` alone. -/
def helpArgs : CmdArgs :=
  { emptyArgs with help := true }

/-- A print-registers-only invocation. -/
def printRegsArgs : CmdArgs :=
  { okArgs with printRegistersOnly := true }

/-- A world in which `parseInstructions` fails. -/
def parseFailWorld : ExtWorld :=
  { okWorld with parseInstructionsOk := false }

/-- A world in which the external serializer `createProcessorModule` fails. -/
def outputFailWorld : ExtWorld :=
  { okWorld with createModuleOk := false }

/-- C2: the exit code is 0 on help/usage display and on success; it is -1
when the required input path is missing, when the endianness value is
neither "big" nor "little", when register-catalog initialization runs and
fails, and when ingestion/parsing runs and fails. -/
theorem C2_exit_codes (a : CmdArgs) (w : ExtWorld) :
    (w.cmdParseThrows = false → a.help = true ∨ w.noArgv = true → (main a w).1 = 0) ∧
    (w.cmdParseThrows = false → a.help = false → w.noArgv = false →
      a.inputFile = none → (main a w).1 = -1) ∧
    (w.cmdParseThrows = false → a.help = false → w.noArgv = false →
      (applyDefaults a).endian ≠ "big" → (applyDefaults a).endian ≠ "little" →
      (main a w).1 = -1) ∧
    (Stage.initRegistersStage ∈ (main a w).2 → w.initRegistersOk = false →
      (main a w).1 = -1) ∧
    (Stage.parseStage ∈ (main a w).2 → w.parseInstructionsOk = false →
      (main a w).1 = -1) ∧
    (w.cmdParseThrows = false → a.help = false → w.noArgv = false →
      a.inputFile ≠ none →
      ((applyDefaults a).endian = "big" ∨ (applyDefaults a).endian = "little") →
      w.initRegistersOk = true → w.parseInstructionsOk = true → (main a w).1 = 0) := by
  unfold main
  refine ⟨?_, ?_, ?_, ?_, ?_, ?_⟩ <;> intros <;> split_ifs <;> simp_all

/-- C2 witness: a fully successful run exits 0. -/
theorem C2_witness : (main okArgs okWorld).1 = 0 :=
  (C2_exit_codes okArgs okWorld).2.2.2.2.2 rfl rfl rfl (by decide) (Or.inl rfl) rfl rfl

/-- C3 counterexample: the help/usage exit path returns without ever
executing the `CLEANUP` teardown (teardown runs zero times, not once), so
not every exit path executes the teardown logic. -/
theorem C3_counterexample :
    (main helpArgs okWorld).2.count Stage.cleanupStage ≠ 1 := by decide

/-- C3 amended: every run that passes command-line validation (no
parse-library error, no help/usage display, an input file present, a valid
endianness) executes the single `CLEANUP` teardown exactly once before
returning — success, register-init failure, parse failure,
print-registers-only, and full-pipeline paths alike; the early
validation exits return without executing the teardown at all. -/
theorem C3_teardown (a : CmdArgs) (w : ExtWorld) :
    (w.cmdParseThrows = false → a.help = false → w.noArgv = false →
      a.inputFile ≠ none →
      ((applyDefaults a).endian = "big" ∨ (applyDefaults a).endian = "little") →
      (main a w).2.count Stage.cleanupStage = 1) ∧
    (w.cmdParseThrows = true ∨ a.help = true ∨ w.noArgv = true ∨ a.inputFile = none ∨
      ((applyDefaults a).endian ≠ "big" ∧ (applyDefaults a).endian ≠ "little") →
      (main a w).2.count Stage.cleanupStage = 0) := by
  unfold main
  constructor <;> intros <;> split_ifs <;> simp_all

/-- C3 witness: in a successful full run the teardown executes exactly
once, and the help path executes it zero times. -/
theorem C3_witness :
    (main okArgs okWorld).2.count Stage.cleanupStage = 1 ∧
    (main helpArgs okWorld).2.count Stage.cleanupStage = 0 :=
  ⟨(C3_teardown okArgs okWorld).1 rfl rfl rfl (by decide) (Or.inl rfl),
   (C3_teardown helpArgs okWorld).2 (Or.inr (Or.inl rfl))⟩

/-- C4 counterexample: with `print-registers-only` set, a run whose
instruction parsing fails exits -1, not 0 — so the flag does not
guarantee exit code 0, and termination is not immediately after
register-catalog construction (parsing runs in between). -/
theorem C4_counterexample : (main printRegsArgs parseFailWorld).1 ≠ 0 := by decide

/-- C4 amended: when `print-registers-only` is set and the command line
validates and register-catalog initialization and instruction parsing both
succeed, the run exits 0 immediately after catalog construction followed by
instruction parsing — reporting the resolved registers and tearing down —
with no combining, attach/token computation, or output generation. -/
theorem C4_print_registers_only (a : CmdArgs) (w : ExtWorld)
    (hthrows : w.cmdParseThrows = false) (hhelp : a.help = false)
    (hargv : w.noArgv = false) (hin : a.inputFile ≠ none)
    (hend : (applyDefaults a).endian = "big" ∨ (applyDefaults a).endian = "little")
    (hinit : w.initRegistersOk = true) (hparse : w.parseInstructionsOk = true)
    (hprint : a.printRegistersOnly = true) :
    main a w = (0, [Stage.initRegistersStage, Stage.parseStage,
                    Stage.printRegsStage, Stage.cleanupStage]) := by
  unfold main
  split_ifs <;> simp_all

/-- C4 witness: a successful print-registers-only run exits 0 right after
catalog construction and parsing. -/
theorem C4_witness :
    main printRegsArgs okWorld = (0, [Stage.initRegistersStage, Stage.parseStage,
      Stage.printRegsStage, Stage.cleanupStage]) :=
  C4_print_registers_only printRegsArgs okWorld rfl rfl rfl (by decide)
    (Or.inl rfl) rfl rfl rfl

/-- C5: when `skip-instruction-combining` is set, none of the three combine
stages ever appears in the run's trace; and a run that reaches the pipeline
still executes attach-group computation, token-field computation, and
output generation over the parsed entries, exiting 0. -/
theorem C5_skip_combining (a : CmdArgs) (w : ExtWorld) :
    (a.skipInstructionCombining = true →
      Stage.combineDuplicatesStage ∉ (main a w).2 ∧
      Stage.combineImmediatesStage ∉ (main a w).2 ∧
      Stage.combineRegistersStage ∉ (main a w).2) ∧
    (w.cmdParseThrows = false → a.help = false → w.noArgv = false →
      a.inputFile ≠ none →
      ((applyDefaults a).endian = "big" ∨ (applyDefaults a).endian = "little") →
      w.initRegistersOk = true → w.parseInstructionsOk = true →
      a.printRegistersOnly = false → a.skipInstructionCombining = true →
      main a w = (0, [Stage.initRegistersStage, Stage.parseStage,
        Stage.attachStage, Stage.tokenStage, Stage.outputStage, Stage.cleanupStage])) := by
  unfold main
  constructor <;> intros <;> split_ifs <;> simp_all

/-- C5 witness: a successful run with combining skipped runs parse, attach,
token, output, cleanup and no combine stage. -/
theorem C5_witness :
    main { okArgs with skipInstructionCombining := true } okWorld =
      (0, [Stage.initRegistersStage, Stage.parseStage,
        Stage.attachStage, Stage.tokenStage, Stage.outputStage, Stage.cleanupStage]) :=
  (C5_skip_combining { okArgs with skipInstructionCombining := true } okWorld).2
    rfl rfl rfl (by decide) (Or.inl rfl) rfl rfl rfl rfl

/-- C6: a run that reaches the pipeline and does not skip combining
executes exactly the stages duplicate-combining, immediate-combining,
register-combining, attach-group computation, token-field computation —
in that strict order, each exactly once, followed by output generation and
teardown. -/
theorem C6_pipeline_order (a : CmdArgs) (w : ExtWorld)
    (hthrows : w.cmdParseThrows = false) (hhelp : a.help = false)
    (hargv : w.noArgv = false) (hin : a.inputFile ≠ none)
    (hend : (applyDefaults a).endian = "big" ∨ (applyDefaults a).endian = "little")
    (hinit : w.initRegistersOk = true) (hparse : w.parseInstructionsOk = true)
    (hprint : a.printRegistersOnly = false)
    (hskip : a.skipInstructionCombining = false) :
    main a w = (0, [Stage.initRegistersStage, Stage.parseStage,
      Stage.combineDuplicatesStage, Stage.combineImmediatesStage,
      Stage.combineRegistersStage,
      Stage.attachStage, Stage.tokenStage, Stage.outputStage, Stage.cleanupStage]) := by
  unfold main
  split_ifs <;> simp_all

/-- C6 witness: the default successful run executes the five pipeline
stages in order. -/
theorem C6_witness :
    main okArgs okWorld = (0, [Stage.initRegistersStage, Stage.parseStage,
      Stage.combineDuplicatesStage, Stage.combineImmediatesStage,
      Stage.combineRegistersStage,
      Stage.attachStage, Stage.tokenStage, Stage.outputStage, Stage.cleanupStage]) :=
  C6_pipeline_order okArgs okWorld rfl rfl rfl (by decide) (Or.inl rfl)
    rfl rfl rfl rfl

/-- C8 counterexample: in a run where the external serializer
`createProcessorModule` fails, the process still exits 0 — output
generation ran, failed, and success was reported anyway, so a
serializer-side failure is not surfaced to the caller. -/
theorem C8_counterexample :
    (main okArgs outputFailWorld).1 = 0 ∧
    Stage.outputStage ∈ (main okArgs outputFailWorld).2 := by decide

/-- C8 amended: the driver ignores `createProcessorModule`'s outcome
entirely — the run's exit code and trace are independent of whether the
serializer succeeds or fails (the call's result is discarded at
main.cpp line 142 and `result` is unconditionally set to 0 after it). -/
theorem C8_output_ignored (a : CmdArgs) (w : ExtWorld) (b : Bool) :
    main a { w with createModuleOk := b } = main a w := rfl

/-- C9: every configuration option not supplied on the command line takes
its declared default: processor name "MyProc", processor family
"MyProcFamily", endianness "big", alignment 1, bitness 32, and the
`bool_switch` flags (omit-opcodes, omit-example-instructions,
skip-instruction-combining, print-registers-only) false when absent. -/
theorem C9_defaults (a : CmdArgs) :
    (a.processorName = none → (applyDefaults a).processorName = "MyProc") ∧
    (a.processorFamily = none → (applyDefaults a).processorFamily = "MyProcFamily") ∧
    (a.endian = none → (applyDefaults a).endian = "big") ∧
    (a.alignment = none → (applyDefaults a).alignment = 1) ∧
    (a.bitness = none → (applyDefaults a).bitness = 32) ∧
    (applyDefaults emptyArgs).omitOpcodes = false ∧
    (applyDefaults emptyArgs).omitExampleInstructions = false ∧
    emptyArgs.skipInstructionCombining = false ∧
    emptyArgs.printRegistersOnly = false := by
  refine ⟨?_, ?_, ?_, ?_, ?_, rfl, rfl, rfl, rfl⟩ <;>
    intro h <;> simp [applyDefaults, h]

/-- C9 witness: with no options supplied at all, the resolved configuration
is exactly the documented defaults. -/
theorem C9_witness :
    (applyDefaults emptyArgs).processorName = "MyProc" ∧
    (applyDefaults emptyArgs).processorFamily = "MyProcFamily" ∧
    (applyDefaults emptyArgs).endian = "big" ∧
    (applyDefaults emptyArgs).alignment = 1 ∧
    (applyDefaults emptyArgs).bitness = 32 :=
  ⟨(C9_defaults emptyArgs).1 rfl, (C9_defaults emptyArgs).2.1 rfl,
   (C9_defaults emptyArgs).2.2.1 rfl, (C9_defaults emptyArgs).2.2.2.1 rfl,
   (C9_defaults emptyArgs).2.2.2.2.1 rfl⟩

/-- C10: help display takes precedence over all configuration validation —
whenever `--help` is present (or no arguments were given) and the argument
vector itself parses, `main` returns 0 with no stage executed, regardless
of whether an input file was supplied or whether the endianness value is
valid. -/
theorem C10_help_precedence (a : CmdArgs) (w : ExtWorld)
    (hthrows : w.cmdParseThrows = false)
    (h : a.help = true ∨ w.noArgv = true) :
    main a w = (0, []) := by
  unfold main
  rcases h with h | h <;> simp [hthrows, h]

/-- C10 witness: `--help` combined with an invalid endianness and no input
file still exits 0. -/
theorem C10_witness :
    main { emptyArgs with help := true, endian := some "bogus" } okWorld = (0, []) :=
  C10_help_precedence { emptyArgs with help := true, endian := some "bogus" }
    okWorld rfl (Or.inl rfl)

/-! ### Bit-string arithmetic lemmas -/

theorem bitsToNat_lt (bs : List Bool) : bitsToNat bs < 2 ^ bs.length := by
  induction bs with
  | nil => simp [bitsToNat]
  | cons b bs ih =>
    cases b <;> simp [bitsToNat, pow_succ] <;> omega

theorem natToBits_pow_mul_add (w k v : Nat) :
    natToBits w (2 ^ w * k + v) = natToBits w v := by
  induction w generalizing k with
  | zero => rfl
  | succ w ih =>
    have hN : 2 ^ (w + 1) * k + v = 2 ^ w * (2 * k) + v := by ring
    have h1 : (2 ^ w * (2 * k) + v) / 2 ^ w = 2 * k + v / 2 ^ w :=
      Nat.mul_add_div (Nat.two_pow_pos w) _ _
    have h2 : (2 * k + v / 2 ^ w) % 2 = v / 2 ^ w % 2 := by omega
    simp only [natToBits, hN, h1, h2]
    exact congrArg₂ List.cons rfl (ih (2 * k))

theorem natToBits_bitsToNat (bs : List Bool) :
    natToBits bs.length (bitsToNat bs) = bs := by
  induction bs with
  | nil => rfl
  | cons b bs ih =>
    have hlt := bitsToNat_lt bs
    have h0 : bitsToNat bs / 2 ^ bs.length = 0 := Nat.div_eq_of_lt hlt
    cases b with
    | false =>
      have hb : bitsToNat (false :: bs) = bitsToNat bs := by simp [bitsToNat]
      simp only [List.length_cons, natToBits, hb, h0]
      simp [ih]
    | true =>
      have hb : bitsToNat (true :: bs) = 2 ^ bs.length * 1 + bitsToNat bs := by
        simp [bitsToNat]
      have h1 : (2 ^ bs.length * 1 + bitsToNat bs) / 2 ^ bs.length =
          1 + bitsToNat bs / 2 ^ bs.length :=
        Nat.mul_add_div (Nat.two_pow_pos _) _ _
      simp only [List.length_cons, natToBits, hb, natToBits_pow_mul_add, h1, h0]
      simp [ih]

/-! ### Slice and substitution lemmas -/

theorem litSlice_length (p : List PatBit) (lo w : Nat) (h : lo + w ≤ p.length) :
    (litSlice p lo w).length = w := by
  simp [litSlice]
  omega

theorem litSlice_getElem? (p : List PatBit) (lo w j : Nat)
    (hj : lo ≤ j) (hw : j < lo + w) :
    (litSlice p lo w)[j - lo]? = (p[j]?).map PatBit.litValue := by
  have h1 : j - lo < w := by omega
  have h2 : lo + (j - lo) = j := by omega
  simp [litSlice, List.getElem?_take, h1, List.getElem?_drop, h2]

theorem writeSlice_length (p : List PatBit) (lo w v : Nat) :
    (writeSlice p lo w v).length = p.length := by
  simp [writeSlice]

theorem writeSlice_getElem?_in (p : List PatBit) (lo w v j : Nat)
    (h1 : lo ≤ j) (h2 : j < lo + w) (h3 : j < p.length) :
    (writeSlice p lo w v)[j]? =
      some (PatBit.lit ((natToBits w v).getD (j - lo) false)) := by
  simp [writeSlice, List.getElem?_range h3, h1, h2]

theorem writeSlice_getElem?_out (p : List PatBit) (lo w v j : Nat)
    (h : ¬ (lo ≤ j ∧ j < lo + w)) :
    (writeSlice p lo w v)[j]? = p[j]? := by
  by_cases h3 : j < p.length
  · have hd : p.getD j (PatBit.lit false) = p[j] := by
      rw [List.getD_eq_getElem?_getD, List.getElem?_eq_getElem h3]
      rfl
    simp [writeSlice, List.getElem?_range h3, h, hd, List.getElem?_eq_getElem h3]
  · have e1 : (writeSlice p lo w v)[j]? = none := by
      rw [List.getElem?_eq_none]
      rw [writeSlice_length]
      omega
    have e2 : p[j]? = none := by
      rw [List.getElem?_eq_none]
      omega
    rw [e1, e2]

theorem refSlice_length (p : List PatBit) (lo w idx : Nat) :
    (refSlice p lo w idx).length = p.length := by
  simp [refSlice]

theorem refSlice_getElem?_in (p : List PatBit) (lo w idx j : Nat)
    (h1 : lo ≤ j) (h2 : j < lo + w) (h3 : j < p.length) :
    (refSlice p lo w idx)[j]? = some (PatBit.fieldRef idx) := by
  simp [refSlice, List.getElem?_range h3, h1, h2]

theorem refSlice_getElem?_out (p : List PatBit) (lo w idx j : Nat)
    (h : ¬ (lo ≤ j ∧ j < lo + w)) :
    (refSlice p lo w idx)[j]? = p[j]? := by
  by_cases h3 : j < p.length
  · have hd : p.getD j (PatBit.lit false) = p[j] := by
      rw [List.getD_eq_getElem?_getD, List.getElem?_eq_getElem h3]
      rfl
    simp [refSlice, List.getElem?_range h3, h, hd, List.getElem?_eq_getElem h3]
  · have e1 : (refSlice p lo w idx)[j]? = none := by
      rw [List.getElem?_eq_none]
      rw [refSlice_length]
      omega
    have e2 : p[j]? = none := by
      rw [List.getElem?_eq_none]
      omega
    rw [e1, e2]

theorem applyField_length (p : List PatBit) (f : OperandField) (v : Nat) :
    (applyField p f v).length = p.length := by
  cases f <;> simp [applyField, writeSlice_length]

theorem applyFields_length (z : List (OperandField × Nat)) (p : List PatBit) :
    (applyFields p z).length = p.length := by
  induction z generalizing p with
  | nil => rfl
  | cons fv z ih =>
    simp only [applyFields, List.foldl_cons]
    rw [show List.foldl (fun acc fv => applyField acc fv.1 fv.2)
          (applyField p fv.1 fv.2) z =
        applyFields (applyField p fv.1 fv.2) z from rfl]
    rw [ih, applyField_length]

theorem applyFields_append (p : List PatBit) (z : List (OperandField × Nat))
    (fv : OperandField × Nat) :
    applyFields p (z ++ [fv]) = applyField (applyFields p z) fv.1 fv.2 := by
  simp [applyFields, List.foldl_append]

theorem writeSlice_getElem?_congr (p₁ p₂ : List PatBit) (lo w v j : Nat)
    (hl : p₁.length = p₂.length) (hj : p₁[j]? = p₂[j]?) :
    (writeSlice p₁ lo w v)[j]? = (writeSlice p₂ lo w v)[j]? := by
  by_cases hin : lo ≤ j ∧ j < lo + w
  · by_cases h3 : j < p₁.length
    · rw [writeSlice_getElem?_in _ _ _ _ _ hin.1 hin.2 h3,
        writeSlice_getElem?_in _ _ _ _ _ hin.1 hin.2 (by omega : j < p₂.length)]
    · have e1 : (writeSlice p₁ lo w v)[j]? = none := by
        rw [List.getElem?_eq_none]
        rw [writeSlice_length]
        omega
      have e2 : (writeSlice p₂ lo w v)[j]? = none := by
        rw [List.getElem?_eq_none]
        rw [writeSlice_length]
        omega
      rw [e1, e2]
  · rw [writeSlice_getElem?_out _ _ _ _ _ hin, writeSlice_getElem?_out _ _ _ _ _ hin]
    exact hj

theorem applyField_getElem?_congr (p₁ p₂ : List PatBit) (f : OperandField) (v j : Nat)
    (hl : p₁.length = p₂.length) (hj : p₁[j]? = p₂[j]?) :
    (applyField p₁ f v)[j]? = (applyField p₂ f v)[j]? := by
  cases f with
  | fixed => exact hj
  | immediateField lo hi s => exact writeSlice_getElem?_congr _ _ _ _ _ _ hl hj
  | registerField lo hi a => exact writeSlice_getElem?_congr _ _ _ _ _ _ hl hj

theorem applyFields_getElem?_congr (z : List (OperandField × Nat))
    (p₁ p₂ : List PatBit) (j : Nat)
    (hl : p₁.length = p₂.length) (hj : p₁[j]? = p₂[j]?) :
    (applyFields p₁ z)[j]? = (applyFields p₂ z)[j]? := by
  induction z generalizing p₁ p₂ with
  | nil => exact hj
  | cons fv z ih =>
    simp only [applyFields, List.foldl_cons]
    exact ih (applyField p₁ fv.1 fv.2) (applyField p₂ fv.1 fv.2)
      (by rw [applyField_length, applyField_length, hl])
      (applyField_getElem?_congr _ _ _ _ _ hl hj)

theorem applyField_getElem?_not_cover (p : List PatBit) (f : OperandField) (v j : Nat)
    (h : ¬ f.cover j) : (applyField p f v)[j]? = p[j]? := by
  cases f with
  | fixed => rfl
  | immediateField lo hi s =>
    refine writeSlice_getElem?_out _ _ _ _ _ ?_
    rintro ⟨h1, h2⟩
    exact h ⟨h1, by omega⟩
  | registerField lo hi a =>
    refine writeSlice_getElem?_out _ _ _ _ _ ?_
    rintro ⟨h1, h2⟩
    exact h ⟨h1, by omega⟩

theorem applyFields_getElem?_not_cover (z : List (OperandField × Nat))
    (p : List PatBit) (j : Nat) (h : ∀ fv ∈ z, ¬ fv.1.cover j) :
    (applyFields p z)[j]? = p[j]? := by
  induction z generalizing p with
  | nil => rfl
  | cons fv z ih =>
    simp only [applyFields, List.foldl_cons]
    rw [show List.foldl (fun acc fv => applyField acc fv.1 fv.2)
          (applyField p fv.1 fv.2) z =
        applyFields (applyField p fv.1 fv.2) z from rfl]
    rw [ih _ (fun x hx => h x (List.mem_cons_of_mem _ hx))]
    exact applyField_getElem?_not_cover _ _ _ _ (h fv (List.mem_cons_self _ _))

/-! ### DuplicateCombiner lemmas -/

theorem dedupBy_subset (seen : List (String × List PatBit × List String))
    (l : List InstructionEntry) : ∀ e ∈ dedupBy seen l, e ∈ l := by
  induction l generalizing seen with
  | nil => intro e he; simp [dedupBy] at he
  | cons a rest ih =>
    intro e he
    simp only [dedupBy] at he
    by_cases h : dupKey a ∈ seen
    · rw [if_pos h] at he
      exact List.mem_cons_of_mem _ (ih seen e he)
    · rw [if_neg h] at he
      rcases List.mem_cons.mp he with rfl | he'
      · exact List.mem_cons_self _ _
      · exact List.mem_cons_of_mem _ (ih _ e he')

theorem dedupBy_keys (seen : List (String × List PatBit × List String))
    (l : List InstructionEntry) :
    ((dedupBy seen l).map dupKey).Nodup ∧
      ∀ k ∈ (dedupBy seen l).map dupKey, k ∉ seen := by
  induction l generalizing seen with
  | nil => simp [dedupBy]
  | cons a rest ih =>
    by_cases h : dupKey a ∈ seen
    · simpa [dedupBy, h] using ih seen
    · have ih' := ih (dupKey a :: seen)
      simp only [dedupBy, if_neg h, List.map_cons, List.nodup_cons]
      refine ⟨⟨?_, ih'.1⟩, ?_⟩
      · intro hmem
        exact (ih'.2 _ hmem) (List.mem_cons_self _ _)
      · intro k hk
        rcases List.mem_cons.mp hk with rfl | hk'
        · exact h
        · intro hks
          exact (ih'.2 k hk') (List.mem_cons_of_mem _ hks)

theorem dedupBy_eq_self (seen : List (String × List PatBit × List String))
    (l : List InstructionEntry) (hnd : (l.map dupKey).Nodup)
    (hs : ∀ k ∈ l.map dupKey, k ∉ seen) : dedupBy seen l = l := by
  induction l generalizing seen with
  | nil => rfl
  | cons a rest ih =>
    have ha : dupKey a ∉ seen := hs _ (by simp)
    have hnd2 : (∀ x ∈ rest, ¬ dupKey x = dupKey a) ∧ (rest.map dupKey).Nodup := by
      simpa using hnd
    simp only [dedupBy, if_neg ha]
    congr 1
    refine ih (dupKey a :: seen) hnd2.2 ?_
    intro k hk hmem
    rcases List.mem_cons.mp hmem with rfl | hmem'
    · obtain ⟨x, hx, hxk⟩ := List.mem_map.mp hk
      exact hnd2.1 x hx hxk
    · refine hs k ?_ hmem'
      simp only [List.map_cons]
      exact List.mem_cons_of_mem _ hk

theorem dedupBy_covers (seen : List (String × List PatBit × List String))
    (l : List InstructionEntry) :
    ∀ e ∈ l, dupKey e ∉ seen → ∃ x ∈ dedupBy seen l, dupKey x = dupKey e := by
  induction l generalizing seen with
  | nil => intro e he; cases he
  | cons a rest ih =>
    intro e he hn
    simp only [dedupBy]
    by_cases h : dupKey a ∈ seen
    · rw [if_pos h]
      rcases List.mem_cons.mp he with rfl | he'
      · exact absurd h hn
      · exact ih seen e he' hn
    · rw [if_neg h]
      by_cases heq : dupKey e = dupKey a
      · exact ⟨a, List.mem_cons_self _ _, heq.symm⟩
      · rcases List.mem_cons.mp he with rfl | he'
        · exact absurd rfl heq
        · obtain ⟨x, hx, hxe⟩ := ih (dupKey a :: seen) e he' (by
            intro hmem
            rcases List.mem_cons.mp hmem with h' | h'
            · exact heq h'
            · exact hn h')
          exact ⟨x, List.mem_cons_of_mem _ hx, hxe⟩

theorem duplicateCombiner_subset (l : List InstructionEntry) :
    ∀ e ∈ duplicateCombiner l, e ∈ l :=
  dedupBy_subset [] l

theorem duplicateCombiner_covers (l : List InstructionEntry) :
    ∀ e ∈ l, ∃ x ∈ duplicateCombiner l, dupKey x = dupKey e :=
  fun e he => dedupBy_covers [] l e he (by simp)

/-- C7: the duplicate-combining pass is idempotent — applying
`duplicateCombiner` to its own output yields a list identical to the
output of applying it once, for every instruction list. -/
theorem C7_duplicate_idempotent (l : List InstructionEntry) :
    duplicateCombiner (duplicateCombiner l) = duplicateCombiner l :=
  dedupBy_eq_self [] _ (dedupBy_keys [] l).1 (fun _ _ => by simp)

/-! ### Candidate-range lemmas -/

theorem getElem?_eq_of_getD_eq (p₁ p₂ : List PatBit) (j : Nat)
    (h₁ : j < p₁.length) (h₂ : j < p₂.length)
    (h : p₁.getD j (PatBit.lit false) = p₂.getD j (PatBit.lit false)) :
    p₁[j]? = p₂[j]? := by
  rw [List.getD_eq_getElem?_getD, List.getD_eq_getElem?_getD,
    List.getElem?_eq_getElem h₁, List.getElem?_eq_getElem h₂] at h
  rw [List.getElem?_eq_getElem h₁, List.getElem?_eq_getElem h₂]
  simpa using h

theorem mem_diffPositions (h : InstructionEntry) (g : List InstructionEntry) (j : Nat) :
    j ∈ diffPositions h g ↔ j < h.pattern.length ∧
      ∃ m ∈ g, m.pattern.getD j (PatBit.lit false) ≠ h.pattern.getD j (PatBit.lit false) := by
  simp [diffPositions, List.mem_filter, List.mem_range, List.any_eq_true]

theorem mergeable_w_pos (h : InstructionEntry) (g : List InstructionEntry)
    (hc : MergeableCore h g) : 1 ≤ groupW h g := by
  rcases Nat.eq_zero_or_pos (groupW h g) with h0 | h1
  · exact absurd (hc.2.2.1.trans (by rw [h0]; rfl)) hc.2.1
  · exact h1

theorem mergeable_mem_range (h : InstructionEntry) (g : List InstructionEntry)
    (hc : MergeableCore h g) (j : Nat) (h1 : groupLo h g ≤ j)
    (h2 : j < groupLo h g + groupW h g) : j ∈ diffPositions h g := by
  rw [hc.2.2.1]
  exact List.mem_range'_1.mpr ⟨h1, h2⟩

theorem mergeable_range_le (h : InstructionEntry) (g : List InstructionEntry)
    (hc : MergeableCore h g) : groupLo h g + groupW h g ≤ h.pattern.length := by
  have hw := mergeable_w_pos h g hc
  have hmem := mergeable_mem_range h g hc (groupLo h g + groupW h g - 1)
    (by omega) (by omega)
  have := (mem_diffPositions h g _).mp hmem
  omega

theorem mergeable_agree_outside (h : InstructionEntry) (g : List InstructionEntry)
    (hc : MergeableCore h g) (m : InstructionEntry) (hm : m ∈ g) (j : Nat)
    (hout : ¬ (groupLo h g ≤ j ∧ j < groupLo h g + groupW h g)) :
    m.pattern[j]? = h.pattern[j]? := by
  have hpl : m.pattern.length = h.pattern.length := (hc.1 m hm).2.2.2
  by_cases hj : j < h.pattern.length
  · have hnd : j ∉ diffPositions h g := by
      rw [hc.2.2.1]
      intro hmem
      exact hout (List.mem_range'_1.mp hmem)
    rw [mem_diffPositions] at hnd
    push_neg at hnd
    exact getElem?_eq_of_getD_eq _ _ _ (by omega) hj (hnd hj m hm)
  · have e1 : m.pattern[j]? = none := by
      rw [List.getElem?_eq_none]
      omega
    have e2 : h.pattern[j]? = none := by
      rw [List.getElem?_eq_none]
      omega
    rw [e1, e2]

theorem mergeable_lit_at (h : InstructionEntry) (g : List InstructionEntry)
    (hc : MergeableCore h g) (m : InstructionEntry) (hm : m ∈ g) (j : Nat)
    (h1 : groupLo h g ≤ j) (h2 : j < groupLo h g + groupW h g) :
    ∃ b, m.pattern[j]? = some (PatBit.lit b) := by
  have hpl : m.pattern.length = h.pattern.length := (hc.1 m hm).2.2.2
  have hjlen : j < m.pattern.length := by
    have := mergeable_range_le h g hc
    omega
  have hlit := hc.2.2.2.1 j (List.mem_range'_1.mpr ⟨h1, h2⟩) m hm
  have hd : m.pattern.getD j (PatBit.lit false) = m.pattern[j] := by
    rw [List.getD_eq_getElem?_getD, List.getElem?_eq_getElem hjlen]
    rfl
  rw [hd] at hlit
  cases hpb : m.pattern[j] with
  | lit b => exact ⟨b, by rw [List.getElem?_eq_getElem hjlen, hpb]⟩
  | fieldRef i =>
    rw [hpb] at hlit
    simp [PatBit.isLit] at hlit

/-! ### The central merge-coverage lemma -/

theorem merge_covers (h : InstructionEntry) (g : List InstructionEntry)
    (hc : MergeableCore h g) (m : InstructionEntry) (hm : m ∈ g)
    (hfree : litFree m) (F : OperandField)
    (hFapply : ∀ acc v, applyField acc F v =
      writeSlice acc (groupLo h g) (groupW h g) v)
    (hFlegal : legalValue F (sliceVal m.pattern (groupLo h g) (groupW h g)))
    (p : List Bool) (hrep : reproducesPat m p) :
    reproducesPat (mergeWith h g F) p := by
  obtain ⟨vs, hlen, hleg, happ⟩ := hrep
  obtain ⟨hmn, htk, hfl, hpl⟩ := hc.1 m hm
  have hrange_le := mergeable_range_le h g hc
  have hwpos := mergeable_w_pos h g hc
  have hzip : (h.fields ++ [F]).zip (vs ++ [sliceVal m.pattern (groupLo h g) (groupW h g)]) =
      m.fields.zip vs ++ [(F, sliceVal m.pattern (groupLo h g) (groupW h g))] := by
    rw [← hfl]
    rw [List.zip_append hlen.symm]
    rfl
  refine ⟨vs ++ [sliceVal m.pattern (groupLo h g) (groupW h g)], ?_, ?_, ?_⟩
  · simp only [mergeWith, List.length_append, List.length_cons, List.length_nil]
    rw [hfl] at hlen
    omega
  · intro fv hfv
    rw [show (mergeWith h g F).fields = h.fields ++ [F] from rfl, hzip] at hfv
    rcases List.mem_append.mp hfv with hfv' | hfv'
    · exact hleg fv hfv'
    · rcases List.mem_singleton.mp hfv' with rfl
      exact hFlegal
  · rw [show (mergeWith h g F).fields = h.fields ++ [F] from rfl,
      show (mergeWith h g F).pattern =
        refSlice h.pattern (groupLo h g) (groupW h g) h.fields.length from rfl,
      hzip, applyFields_append]
    rw [show ((F, sliceVal m.pattern (groupLo h g) (groupW h g)) :
        OperandField × Nat).1 = F from rfl]
    rw [show ((F, sliceVal m.pattern (groupLo h g) (groupW h g)) :
        OperandField × Nat).2 = sliceVal m.pattern (groupLo h g) (groupW h g) from rfl]
    rw [hFapply, ← happ]
    apply List.ext_getElem?
    intro j
    have hQlen : (applyFields
        (refSlice h.pattern (groupLo h g) (groupW h g) h.fields.length)
        (m.fields.zip vs)).length = h.pattern.length := by
      rw [applyFields_length, refSlice_length]
    have hRlen : (applyFields m.pattern (m.fields.zip vs)).length = m.pattern.length :=
      applyFields_length _ _
    by_cases hin : groupLo h g ≤ j ∧ j < groupLo h g + groupW h g
    · have hjh : j < h.pattern.length := by omega
      have hjm : j < m.pattern.length := by omega
      obtain ⟨b, hb⟩ := mergeable_lit_at h g hc m hm j hin.1 hin.2
      have hls_len : (litSlice m.pattern (groupLo h g) (groupW h g)).length =
          groupW h g := litSlice_length _ _ _ (by omega)
      have hnb : natToBits (groupW h g)
          (sliceVal m.pattern (groupLo h g) (groupW h g)) =
          litSlice m.pattern (groupLo h g) (groupW h g) := by
        have hrt := natToBits_bitsToNat (litSlice m.pattern (groupLo h g) (groupW h g))
        rw [hls_len] at hrt
        rw [sliceVal]
        exact hrt
      have hgd : (litSlice m.pattern (groupLo h g) (groupW h g)).getD
          (j - groupLo h g) false = PatBit.litValue (PatBit.lit b) := by
        rw [List.getD_eq_getElem?_getD, litSlice_getElem? _ _ _ _ hin.1 hin.2, hb]
        rfl
      rw [writeSlice_getElem?_in _ _ _ _ _ hin.1 hin.2 (by omega), hnb, hgd]
      have hnc : ∀ fv ∈ m.fields.zip vs, ¬ fv.1.cover j := by
        intro fv hfv
        exact hfree j b hb fv.1 (List.of_mem_zip hfv).1
      rw [applyFields_getElem?_not_cover _ _ _ hnc, hb]
      rfl
    · rw [writeSlice_getElem?_out _ _ _ _ _ hin]
      refine applyFields_getElem?_congr _ _ _ _ ?_ ?_
      · rw [refSlice_length, hpl]
      · rw [refSlice_getElem?_out _ _ _ _ _ hin]
        exact (mergeable_agree_outside h g hc m hm j hin).symm

/-- A merged entry keeps its fields on field-reference positions only. -/
theorem merge_litFree (h : InstructionEntry) (g : List InstructionEntry)
    (_hc : MergeableCore h g) (hfree : litFree h) (F : OperandField)
    (hFcov : ∀ j, F.cover j →
      groupLo h g ≤ j ∧ j < groupLo h g + groupW h g) :
    litFree (mergeWith h g F) := by
  intro j b hj f hf
  rw [show (mergeWith h g F).pattern =
    refSlice h.pattern (groupLo h g) (groupW h g) h.fields.length from rfl] at hj
  by_cases hin : groupLo h g ≤ j ∧ j < groupLo h g + groupW h g
  · by_cases hjlen : j < h.pattern.length
    · rw [refSlice_getElem?_in _ _ _ _ _ hin.1 hin.2 hjlen] at hj
      cases hj
    · have : (refSlice h.pattern (groupLo h g) (groupW h g) h.fields.length)[j]? = none := by
        rw [List.getElem?_eq_none]
        rw [refSlice_length]
        omega
      rw [this] at hj
      cases hj
  · rw [refSlice_getElem?_out _ _ _ _ _ hin] at hj
    rcases List.mem_append.mp
        (show f ∈ h.fields ++ [F] from hf) with hf' | hf'
    · exact hfree j b hj f hf'
    · rcases List.mem_singleton.mp hf' with rfl
      intro hcov
      exact hin (hFcov j hcov)

/-! ### Group partition lemmas -/

theorem mem_groupsOf (l : List InstructionEntry) (e : InstructionEntry) (he : e ∈ l) :
    ∃ g ∈ groupsOf l, e ∈ g := by
  refine ⟨l.filter fun x => decide (groupKey x = groupKey e), ?_, ?_⟩
  · unfold groupsOf
    exact List.mem_map_of_mem _ (List.mem_dedup.mpr (List.mem_map_of_mem groupKey he))
  · exact List.mem_filter.mpr ⟨he, by simp⟩

theorem groupsOf_sub (l : List InstructionEntry) (g : List InstructionEntry)
    (hg : g ∈ groupsOf l) : ∀ x ∈ g, x ∈ l := by
  unfold groupsOf at hg
  obtain ⟨k, hk, rfl⟩ := List.mem_map.mp hg
  exact fun x hx => (List.mem_filter.mp hx).1

/-! ### ImmediateCombiner lemmas -/

theorem combineGroupImm_litFree (g : List InstructionEntry)
    (hfree : ∀ x ∈ g, litFree x) : ∀ y ∈ combineGroupImm g, litFree y := by
  cases g with
  | nil => intro y hy; cases hy
  | cons h t =>
    intro y hy
    simp only [combineGroupImm] at hy
    by_cases hcond : t ≠ [] ∧ MergeableCore h (h :: t)
    · rw [if_pos hcond] at hy
      rcases List.mem_singleton.mp hy with rfl
      have hc := hcond.2
      have hwpos := mergeable_w_pos h (h :: t) hc
      apply merge_litFree h (h :: t) hc (hfree h (by simp))
      intro j hcov
      simp only [OperandField.cover] at hcov
      omega
    · rw [if_neg hcond] at hy
      exact hfree y hy

theorem combineGroupImm_covers (g : List InstructionEntry)
    (hfree : ∀ x ∈ g, litFree x) (m : InstructionEntry) (hm : m ∈ g) :
    ∃ x ∈ combineGroupImm g, x.mnemonic = m.mnemonic ∧
      ∀ p, reproducesPat m p → reproducesPat x p := by
  cases g with
  | nil => cases hm
  | cons h t =>
    simp only [combineGroupImm]
    by_cases hcond : t ≠ [] ∧ MergeableCore h (h :: t)
    · rw [if_pos hcond]
      have hc := hcond.2
      have hwpos := mergeable_w_pos h (h :: t) hc
      have harith : groupLo h (h :: t) + groupW h (h :: t) - 1 + 1 - groupLo h (h :: t) =
          groupW h (h :: t) := by omega
      refine ⟨mergeImm h (h :: t), by simp, ((hc.1 m hm).1).symm, ?_⟩
      intro p hp
      apply merge_covers h (h :: t) hc m hm (hfree m hm) _ ?_ ?_ p hp
      · intro acc v
        simp only [applyField]
        rw [harith]
      · simp only [legalValue]
        rw [harith]
        have hple := mergeable_range_le h (h :: t) hc
        have hpl := (hc.1 m hm).2.2.2
        have hls := litSlice_length m.pattern (groupLo h (h :: t)) (groupW h (h :: t))
          (by omega)
        have hlt := bitsToNat_lt (litSlice m.pattern (groupLo h (h :: t)) (groupW h (h :: t)))
        rw [hls] at hlt
        exact hlt
    · rw [if_neg hcond]
      exact ⟨m, hm, rfl, fun p hp => hp⟩

theorem immediateCombiner_litFree (l : List InstructionEntry)
    (hfree : ∀ x ∈ l, litFree x) : ∀ y ∈ immediateCombiner l, litFree y := by
  intro y hy
  obtain ⟨g, hg, hyg⟩ := List.mem_flatMap.mp hy
  exact combineGroupImm_litFree g (fun x hx => hfree x (groupsOf_sub l g hg x hx)) y hyg

theorem immediateCombiner_covers (l : List InstructionEntry)
    (hfree : ∀ x ∈ l, litFree x) (m : InstructionEntry) (hm : m ∈ l) :
    ∃ x ∈ immediateCombiner l, x.mnemonic = m.mnemonic ∧
      ∀ p, reproducesPat m p → reproducesPat x p := by
  obtain ⟨g, hg, hmg⟩ := mem_groupsOf l m hm
  obtain ⟨x, hx, hres⟩ := combineGroupImm_covers g
    (fun z hz => hfree z (groupsOf_sub l g hg z hz)) m hmg
  exact ⟨x, List.mem_flatMap.mpr ⟨g, hg, hx⟩, hres⟩

/-! ### RegisterCombiner lemmas -/

theorem combineGroupReg_covers (cat : RegisterCatalog) (g : List InstructionEntry)
    (hfree : ∀ x ∈ g, litFree x) (m : InstructionEntry) (hm : m ∈ g) :
    ∃ x ∈ combineGroupReg cat g, x.mnemonic = m.mnemonic ∧
      ∀ p, reproducesPat m p → reproducesPat x p := by
  cases g with
  | nil => cases hm
  | cons h t =>
    simp only [combineGroupReg]
    by_cases hcond : t ≠ [] ∧ MergeableReg cat h (h :: t)
    · rw [if_pos hcond]
      have hc := hcond.2.1
      have hwpos := mergeable_w_pos h (h :: t) hc
      have harith : groupLo h (h :: t) + groupW h (h :: t) - 1 + 1 - groupLo h (h :: t) =
          groupW h (h :: t) := by omega
      refine ⟨mergeReg cat h (h :: t), by simp, ((hc.1 m hm).1).symm, ?_⟩
      intro p hp
      apply merge_covers h (h :: t) hc m hm (hfree m hm) _ ?_ ?_ p hp
      · intro acc v
        simp only [applyField]
        rw [harith]
      · simp only [legalValue]
        refine ⟨(resolveRegToken cat m).getD "", ?_⟩
        rw [attachList]
        rw [List.mem_mergeSort]
        exact List.mem_map.mpr ⟨m, hm, rfl⟩
    · rw [if_neg hcond]
      exact ⟨m, hm, rfl, fun p hp => hp⟩

theorem registerCombiner_covers (cat : RegisterCatalog) (l : List InstructionEntry)
    (hfree : ∀ x ∈ l, litFree x) (m : InstructionEntry) (hm : m ∈ l) :
    ∃ x ∈ registerCombiner cat l, x.mnemonic = m.mnemonic ∧
      ∀ p, reproducesPat m p → reproducesPat x p := by
  obtain ⟨g, hg, hmg⟩ := mem_groupsOf l m hm
  obtain ⟨x, hx, hres⟩ := combineGroupReg_covers cat g
    (fun z hz => hfree z (groupsOf_sub l g hg z hz)) m hmg
  exact ⟨x, List.mem_flatMap.mpr ⟨g, hg, hx⟩, hres⟩

/-! ### Raw-entry base lemmas and the C1 claim -/

theorem map_lit_litValue (p : List PatBit) (h : p.all PatBit.isLit = true) :
    p.map (fun pb => PatBit.lit pb.litValue) = p := by
  induction p with
  | nil => rfl
  | cons a p ih =>
    simp only [List.all_cons, Bool.and_eq_true] at h
    cases a with
    | lit b =>
      rw [List.map_cons, ih h.2]
      rfl
    | fieldRef i => simp [PatBit.isLit] at h

theorem raw_reproduces (e x : InstructionEntry) (hraw : isRawEntry e)
    (hx : x.fields = []) (hpat : x.pattern = e.pattern) :
    reproducesPat x (rawBits e) := by
  have h2 : (rawBits e).map PatBit.lit = e.pattern := by
    rw [rawBits, List.map_map]
    simpa [Function.comp] using map_lit_litValue e.pattern hraw.2
  refine ⟨[], by simp [hx], ?_, ?_⟩
  · rw [List.zip_nil_right]
    intro fv hfv
    cases hfv
  · rw [List.zip_nil_right]
    rw [show applyFields x.pattern [] = x.pattern from rfl, hpat, h2]

/-- C1 counterexample: two raw entries under different mnemonics sharing
one BitPattern — the spec's own ambiguous-encoding case, retained unmerged
by every pass — yield a final combined set in which TWO entries reproduce
the first raw entry's exact BitPattern, so no entry is unique with that
property. -/
theorem C1_counterexample :
    ¬ ∃! x, x ∈ finalCombined [] [entryA, entryB] ∧
      reproducesPat x (rawBits entryA) := by
  rintro ⟨x, hx, hu⟩
  have hfin : finalCombined [] [entryA, entryB] = [entryA, entryB] := by decide
  have hA : entryA ∈ finalCombined [] [entryA, entryB] ∧
      reproducesPat entryA (rawBits entryA) := by
    refine ⟨by rw [hfin]; simp, ?_⟩
    exact raw_reproduces entryA entryA (by decide) rfl rfl
  have hB : entryB ∈ finalCombined [] [entryA, entryB] ∧
      reproducesPat entryB (rawBits entryA) := by
    refine ⟨by rw [hfin]; simp, ?_⟩
    exact raw_reproduces entryA entryB (by decide) rfl rfl
  have e1 := hu entryA hA
  have e2 := hu entryB hB
  rw [← e2] at e1
  exact absurd e1 (by decide)

/-- C1 amended: for every raw input entry there exists AT LEAST one entry
of the final combined set, with the raw entry's mnemonic, such that
substituting some legal value for each of that entry's OperandFields
reproduces the raw entry's exact BitPattern; in particular no combine pass
ever drops an input entry (uniqueness fails in general, see the
ambiguous-encoding counterexample). -/
theorem C1_coverage (cat : RegisterCatalog) (l : List InstructionEntry)
    (hraw : ∀ e ∈ l, isRawEntry e) :
    ∀ e ∈ l, ∃ x ∈ finalCombined cat l, x.mnemonic = e.mnemonic ∧
      reproducesPat x (rawBits e) := by
  intro e he
  obtain ⟨x1, hx1mem, hx1key⟩ := duplicateCombiner_covers l e he
  have hx1l : x1 ∈ l := duplicateCombiner_subset l x1 hx1mem
  have hx1raw := hraw x1 hx1l
  have hkey : x1.mnemonic = e.mnemonic ∧ x1.pattern = e.pattern ∧
      x1.tokens = e.tokens := by
    simpa [dupKey, Prod.ext_iff] using hx1key
  have hbase : reproducesPat x1 (rawBits e) :=
    raw_reproduces e x1 (hraw e he) hx1raw.1 hkey.2.1
  have hfree1 : ∀ x ∈ duplicateCombiner l, litFree x := by
    intro x hx j b hj f hf
    rw [(hraw x (duplicateCombiner_subset l x hx)).1] at hf
    cases hf
  obtain ⟨x2, hx2mem, hx2mn, hx2rep⟩ :=
    immediateCombiner_covers (duplicateCombiner l) hfree1 x1 hx1mem
  have hfree2 : ∀ x ∈ immediateCombiner (duplicateCombiner l), litFree x :=
    immediateCombiner_litFree (duplicateCombiner l) hfree1
  obtain ⟨x3, hx3mem, hx3mn, hx3rep⟩ :=
    registerCombiner_covers cat (immediateCombiner (duplicateCombiner l)) hfree2 x2 hx2mem
  refine ⟨x3, hx3mem, ?_, hx3rep _ (hx2rep _ hbase)⟩
  rw [hx3mn, hx2mn, hkey.1]

/-- C1 witness: on the ambiguous two-entry input, the first raw entry is
still represented in the final combined set. -/
theorem C1_witness :
    ∃ x ∈ finalCombined [] [entryA, entryB], x.mnemonic = entryA.mnemonic ∧
      reproducesPat x (rawBits entryA) :=
  C1_coverage [] [entryA, entryB] (by decide) entryA (by decide)

end GPMG
